import Mathlib

/-!
Verification development for the Reddit narrative spread analysis pipeline
(`app.py`): a keyword-based narrative classifier over post texts, expansion of
posts into one amplification event per matched narrative, per-narrative
first-seen times and whole-day offsets, an inclusive day window filter, and the
aggregates the dashboard renders (window summary, per-narrative time series and
peak day, top communities, dominant narrative, average posts per day).

Strings are modelled through their character lists so that every operation
reduces by kernel computation; pandas sorting (`sort_values`, sorted `groupby`
keys) is modelled as a stable sort.
-/

namespace NarrativeSpread

/-! ## Python string primitives -/

/-- ASCII lower-casing of one character, as Python's `str.lower` acts on the
ASCII letters the configured keywords use. -/
def lowerChar (c : Char) : Char :=
  if 65 ≤ c.toNat ∧ c.toNat ≤ 90 then Char.ofNat (c.toNat + 32) else c

/-- `str.lower` applied to a whole string. -/
def pyLower (s : String) : String := ⟨s.data.map lowerChar⟩

/-- `needle in hay` for Python strings: substring containment, scanning the
haystack position by position. -/
def pyIn (kw text : String) : Bool :=
  go kw.data text.data
where
  go (needle : List Char) : List Char → Bool
    | [] => needle.isEmpty
    | c :: t => needle.isPrefixOf (c :: t) || go needle t

/-- Lexicographic order on character lists by code point, as Python compares
strings. -/
def lexLt : List Char → List Char → Bool
  | [], [] => false
  | [], _ :: _ => true
  | _ :: _, [] => false
  | a :: as, b :: bs =>
    if a.toNat < b.toNat then true
    else if b.toNat < a.toNat then false
    else lexLt as bs

/-- String comparison by code-point lexicographic order. -/
def pyStrLt (a b : String) : Bool := lexLt a.data b.data

/-! ## Data model (`app.py` lines 37-61) -/

/-- One input record: the five columns `clean_df` keeps. `title` and
`selftext` are nullable (`fillna("")` is applied before matching). -/
structure Post where
  subreddit : String
  author : String
  created_utc : Int
  title : Option String
  selftext : Option String
deriving DecidableEq

/-- The narrative keyword rules, exactly as configured in `NARRATIVES`. -/
def NARRATIVES : List (String × List String) :=
  [ ("Technology / Big Tech",
      ["technology", "tech", "ai", "artificial intelligence",
       "google", "meta", "facebook", "twitter", "musk", "data"])
  , ("Politics / Government",
      ["election", "vote", "government", "policy", "bill",
       "parliament", "congress", "minister", "president", "party"])
  , ("Geopolitics / Conflict",
      ["war", "attack", "terror", "terrorist", "military",
       "missile", "killed", "invasion", "border", "conflict"])
  , ("Economy / Jobs",
      ["economy", "inflation", "jobs", "unemployment",
       "recession", "market", "wages", "growth"]) ]

/-- The `text` column: `(title.fillna("") + " " + selftext.fillna("")).lower()`. -/
def textOf (p : Post) : String :=
  pyLower (((p.title.getD "") ++ " ") ++ (p.selftext.getD ""))

/-- `detect_narratives` (lines 71-78): a narrative is matched when any of its
keywords occurs in the text; `any` models the inner `break`. -/
def detect_narratives (text : String) : List String :=
  (NARRATIVES.filter (fun nr => nr.2.any (fun kw => pyIn kw text))).map Prod.fst

/-- One row of `narrative_df` after `explode`/`dropna`: a post paired with one
matched narrative. -/
structure Event where
  subreddit : String
  author : String
  created_utc : Int
  narrative : String
deriving DecidableEq

/-- `clean_df.explode("narratives").dropna(...)` (lines 80-83): one event per
matched narrative; posts with no match contribute nothing. -/
def explodeEvents (posts : List Post) : List Event :=
  posts.flatMap (fun p =>
    (detect_narratives (textOf p)).map (fun n =>
      { subreddit := p.subreddit, author := p.author,
        created_utc := p.created_utc, narrative := n }))

/-- `first_seen` (lines 92-98): the minimum `created_time` over all events of a
narrative, computed on the full unwindowed event set. The `[]` branch is never
reached for a narrative that has an event. -/
def firstSeen (evs : List Event) (n : String) : Int :=
  match (evs.filter (fun e => e.narrative == n)).map (fun e => e.created_utc) with
  | [] => 0
  | t :: ts => ts.foldl min t

/-- `days_since_start` (lines 102-104): pandas `.dt.days` truncates the delta
to whole days toward minus infinity, which is `Int` floor division by the
86400 seconds of a day. -/
def daysSinceStart (evs : List Event) (e : Event) : Int :=
  (e.created_utc - firstSeen evs e.narrative) / 86400

/-- An event annotated with its day offset: a row of the final `narrative_df`. -/
structure AEvent extends Event where
  days_since_start : Int
deriving DecidableEq

/-- `narrative_df` after the merge (lines 88-104): every exploded event carries
its narrative's day offset, with `first_seen` taken over the full dataset. -/
def annEvents (posts : List Post) : List AEvent :=
  let evs := explodeEvents posts
  evs.map (fun e => { toEvent := e, days_since_start := daysSinceStart evs e })

/-- `narrative_df["days_since_start"].min()` (line 111): `none` models the NaN
an empty event set produces, on which the surrounding `int(...)` raises. -/
def min_day (evs : List AEvent) : Option Int :=
  match evs.map (fun e => e.days_since_start) with
  | [] => none
  | d :: ds => some (ds.foldl min d)

/-- `window_df` (lines 119-122): events whose day offset lies in the inclusive
slider range. -/
def window_df (evs : List AEvent) (a b : Int) : List AEvent :=
  evs.filter (fun e => decide (a ≤ e.days_since_start) && decide (e.days_since_start ≤ b))

/-- The three window KPIs (lines 129-138). -/
structure WindowSummary where
  total_events : Nat
  active_subreddits : Nat
  active_narratives : Nat
deriving DecidableEq

/-- `len`, `nunique`, `nunique` over the windowed set. -/
def windowSummary (w : List AEvent) : WindowSummary :=
  { total_events := w.length
  , active_subreddits := (w.map (fun e => e.subreddit)).dedup.length
  , active_narratives := (w.map (fun e => e.narrative)).dedup.length }

/-! ## Stable sorting

`r q p = true` reads "q must stay strictly before p"; `sIns` inserts `p` after
every earlier element that strictly precedes it, so `sSort` is a stable sort,
the deterministic model of pandas `sort_values` and of sorted `groupby` keys. -/

def sIns (r : α → α → Bool) (p : α) : List α → List α
  | [] => [p]
  | q :: qs => if r q p then q :: sIns r p qs else p :: q :: qs

def sSort (r : α → α → Bool) : List α → List α
  | [] => []
  | p :: l => sIns r p (sSort r l)

/-- The first element of a list attaining the strict maximum of `r`: what
`.iloc[0]` reads off a stably descending-sorted frame. -/
def firstMaxBy (r : α → α → Bool) : List α → Option α
  | [] => none
  | p :: l =>
    match firstMaxBy r l with
    | none => some p
    | some m => if r m p then some m else some p

/-! ## Time series and peak day -/

/-- The `groupby(["days_since_start", "narratives"])` key of an event. -/
def eventKey (e : AEvent) : Int × String := (e.days_since_start, e.narrative)

/-- Lexicographic order on group keys, the order a sorted groupby emits. -/
def keyLt (k k' : Int × String) : Bool :=
  decide (k.1 < k'.1) || (decide (k.1 = k'.1) && pyStrLt k.2 k'.2)

/-- `narrative_time_df` (lines 160-165): one row per distinct
(day, narrative) key in ascending key order, carrying the group size. It is
computed over the FULL unwindowed event set. -/
def narrative_time_df (evs : List AEvent) : List (Int × String × Nat) :=
  (sSort keyLt ((evs.map eventKey).dedup)).map
    (fun k => (k.1, k.2, (evs.map eventKey).count k))

/-- Descending order on the `count` column of a time-series row. -/
def cntDescRow (x y : Int × String × Nat) : Bool := decide (y.2.2 < x.2.2)

/-- `peak_row` (lines 179-185): the selected narrative's time-series rows,
sorted by count descending, first row. -/
def peak_row (evs : List AEvent) (sel : String) : Option (Int × String × Nat) :=
  (sSort cntDescRow ((narrative_time_df evs).filter (fun row => row.2.1 == sel))).head?

/-- `int(peak_row["days_since_start"])` (line 196). -/
def peakDay (evs : List AEvent) (sel : String) : Option Int :=
  (peak_row evs sel).map (fun row => row.1)

/-- The count the full unwindowed time series assigns to day `d` of narrative
`sel`. -/
def tsCount (evs : List AEvent) (sel : String) (d : Int) : Nat :=
  evs.countP (fun e => e.days_since_start == d && e.narrative == sel)

/-! ## Top communities -/

/-- Descending order on the count component of a (subreddit, count) pair. -/
def cntDescPair (x y : String × Nat) : Bool := decide (y.2 < x.2)

/-- `community_counts` (lines 217-223): the windowed events of the selected
narrative, grouped by subreddit (sorted keys), group sizes sorted descending,
first ten rows. -/
def community_counts (evs : List AEvent) (a b : Int) (sel : String) : List (String × Nat) :=
  let selw := (window_df evs a b).filter (fun e => e.narrative == sel)
  let subs := selw.map (fun e => e.subreddit)
  (sSort cntDescPair ((sSort pyStrLt subs.dedup).map (fun s => (s, subs.count s)))).take 10

/-- The distinct values of a list in first-encountered order. -/
def uniqLeft : List String → List String
  | [] => []
  | x :: xs => x :: ((uniqLeft xs).filter (fun y => !(y == x)))

/-- The TopCommunities aggregate as the specification words it: the same
counts, but with ties between equal counts broken by the order the subreddit
was FIRST ENCOUNTERED in the event set, for comparison with
`community_counts`. -/
def community_counts_specOrder (evs : List AEvent) (a b : Int) (sel : String) :
    List (String × Nat) :=
  let selw := (window_df evs a b).filter (fun e => e.narrative == sel)
  let subs := selw.map (fun e => e.subreddit)
  (sSort cntDescPair ((uniqLeft subs).map (fun s => (s, subs.count s)))).take 10

/-! ## Observations (lines 237-275) -/

/-- `value_counts()`: counts of distinct values in first-encountered order,
stably sorted by count descending. -/
def value_counts (l : List String) : List (String × Nat) :=
  sSort cntDescPair ((uniqLeft l).map (fun s => (s, l.count s)))

/-- `window_df["narratives"].value_counts().idxmax()` (lines 244-248): the
first index of the descending counts. The default is never read when the
windowed set is non-empty. -/
def dominant_narrative (w : List AEvent) : String :=
  (((value_counts (w.map (fun e => e.narrative))).head?).map Prod.fst).getD ""

/-- Ascending order on `Int`. -/
def intLt (x y : Int) : Bool := decide (x < y)

/-- `window_df.groupby("days_since_start").size().mean()` (lines 251-256): the
mean of the per-day event counts over the days present in the window. -/
def avg_posts_per_day (w : List AEvent) : ℚ :=
  let ds := w.map (fun e => e.days_since_start)
  let sizes := (sSort intLt ds.dedup).map (fun d => ds.count d)
  (sizes.sum : ℚ) / (sizes.length : ℚ)

/-- The four observation values the report interpolates. -/
structure Observations where
  dominant : String
  days_to_peak : Option Int
  communities_reached : Nat
  avg_per_day : ℚ
deriving DecidableEq

/-- The empty-window message (lines 238-241). -/
def emptyWindowMsg : String :=
  "No posts fall within the selected time window. Please expand the window to view narrative activity."

/-- The observations section (lines 237-275): the single message when the
windowed set is empty, the computed aggregates otherwise. -/
def observations (evs : List AEvent) (a b : Int) (sel : String) :
    Except String Observations :=
  let w := window_df evs a b
  if w.length = 0 then .error emptyWindowMsg
  else .ok
    { dominant := dominant_narrative w
    , days_to_peak := peakDay evs sel
    , communities_reached :=
        ((w.filter (fun e => e.narrative == sel)).map (fun e => e.subreddit)).dedup.length
    , avg_per_day := avg_posts_per_day w }

/-- One interactive run of the dashboard for a window `[a, b]` and a selected
narrative: every output the page renders from the loaded posts. -/
structure PipelineRun where
  windowed : List AEvent
  summary : WindowSummary
  timeSeries : List (Int × String × Nat)
  peak : Option Int
  communities : List (String × Nat)
  report : Except String Observations

def runPipeline (posts : List Post) (a b : Int) (sel : String) : PipelineRun :=
  let evs := annEvents posts
  { windowed := window_df evs a b
  , summary := windowSummary (window_df evs a b)
  , timeSeries := narrative_time_df evs
  , peak := peakDay evs sel
  , communities := community_counts evs a b sel
  , report := observations evs a b sel }

/-! ## Order facts for the comparison functions -/

theorem charEq_of_toNat_eq {a b : Char} (h : a.toNat = b.toNat) : a = b := by
  have h2 : Char.ofNat a.toNat = Char.ofNat b.toNat := by rw [h]
  rwa [Char.ofNat_toNat, Char.ofNat_toNat] at h2

theorem lexLt_irrefl : ∀ l, lexLt l l = false
  | [] => rfl
  | _ :: as => by simp [lexLt, lexLt_irrefl as]

theorem lexLt_trans : ∀ a b c, lexLt a b = true → lexLt b c = true → lexLt a c = true
  | [], [], _, h1, _ => by simp [lexLt] at h1
  | [], _ :: _, [], _, h2 => by simp [lexLt] at h2
  | [], _ :: _, _ :: _, _, _ => rfl
  | _ :: _, [], _, h1, _ => by simp [lexLt] at h1
  | _ :: _, _ :: _, [], _, h2 => by simp [lexLt] at h2
  | x :: xs, y :: ys, z :: zs, h1, h2 => by
    simp only [lexLt] at h1 h2 ⊢
    split_ifs at h1 h2 ⊢ <;> try omega
    all_goals try rfl
    all_goals exact lexLt_trans xs ys zs h1 h2

theorem lexLt_tri : ∀ a b, a = b ∨ lexLt a b = true ∨ lexLt b a = true
  | [], [] => Or.inl rfl
  | [], _ :: _ => Or.inr (Or.inl rfl)
  | _ :: _, [] => Or.inr (Or.inr rfl)
  | x :: xs, y :: ys => by
    rcases Nat.lt_trichotomy x.toNat y.toNat with h | h | h
    · exact Or.inr (Or.inl (by simp [lexLt, h]))
    · have hxy : x = y := charEq_of_toNat_eq h
      subst hxy
      rcases lexLt_tri xs ys with h' | h' | h'
      · exact Or.inl (by rw [h'])
      · exact Or.inr (Or.inl (by simp [lexLt, h']))
      · exact Or.inr (Or.inr (by simp [lexLt, h']))
    · exact Or.inr (Or.inr (by simp [lexLt, h, Nat.lt_asymm h]))

/-- Asymmetry, derived from irreflexivity and transitivity. -/
theorem asymm_of (r : α → α → Bool) (hirr : ∀ a, r a a = false)
    (htrans : ∀ a b c, r a b = true → r b c = true → r a c = true) :
    ∀ a b, r a b = true → r b a = false := by
  intro a b h
  by_contra h'
  have hba : r b a = true := by simpa using h'
  have h2 := htrans a b a h hba
  rw [hirr a] at h2
  exact Bool.noConfusion h2

/-- The "may precede" relation `r · · = false` is transitive for a strict
total order `r`. -/
theorem negtrans_of (r : α → α → Bool) (_hirr : ∀ a, r a a = false)
    (htrans : ∀ a b c, r a b = true → r b c = true → r a c = true)
    (htri : ∀ a b, a = b ∨ r a b = true ∨ r b a = true) :
    ∀ a b c, r b a = false → r c b = false → r c a = false := by
  intro a b c h1 h2
  by_contra h'
  have hca : r c a = true := by simpa using h'
  rcases htri a b with rfl | hab | hba
  · rw [hca] at h2; exact Bool.noConfusion h2
  · have h3 := htrans c a b hca hab
    rw [h3] at h2; exact Bool.noConfusion h2
  · rw [hba] at h1; exact Bool.noConfusion h1

theorem pyStrLt_irrefl (s : String) : pyStrLt s s = false := lexLt_irrefl s.data

theorem pyStrLt_trans {a b c : String} (h1 : pyStrLt a b = true) (h2 : pyStrLt b c = true) :
    pyStrLt a c = true := lexLt_trans a.data b.data c.data h1 h2

theorem pyStrLt_tri (a b : String) : a = b ∨ pyStrLt a b = true ∨ pyStrLt b a = true := by
  rcases lexLt_tri a.data b.data with h | h | h
  · exact Or.inl (String.ext h)
  · exact Or.inr (Or.inl h)
  · exact Or.inr (Or.inr h)

theorem keyLt_irrefl (k : Int × String) : keyLt k k = false := by
  simp [keyLt, pyStrLt_irrefl]

theorem keyLt_trans {a b c : Int × String} (h1 : keyLt a b = true) (h2 : keyLt b c = true) :
    keyLt a c = true := by
  simp only [keyLt, Bool.or_eq_true, Bool.and_eq_true, decide_eq_true_eq] at h1 h2 ⊢
  rcases h1 with h1 | ⟨h1e, h1s⟩ <;> rcases h2 with h2 | ⟨h2e, h2s⟩
  · exact Or.inl (h1.trans h2)
  · exact Or.inl (h2e ▸ h1)
  · exact Or.inl (h1e ▸ h2)
  · exact Or.inr ⟨h1e.trans h2e, pyStrLt_trans h1s h2s⟩

theorem keyLt_tri (a b : Int × String) : a = b ∨ keyLt a b = true ∨ keyLt b a = true := by
  rcases lt_trichotomy a.1 b.1 with h | h | h
  · exact Or.inr (Or.inl (by simp [keyLt, h]))
  · rcases pyStrLt_tri a.2 b.2 with h' | h' | h'
    · exact Or.inl (Prod.ext h h')
    · exact Or.inr (Or.inl (by simp [keyLt, h, h']))
    · exact Or.inr (Or.inr (by simp [keyLt, h.symm, h']))
  · exact Or.inr (Or.inr (by simp [keyLt, h]))

/-! ## The stable sort: permutation, head, and order lemmas -/

theorem sIns_perm (r : α → α → Bool) (p : α) : ∀ l, (sIns r p l).Perm (p :: l)
  | [] => List.Perm.refl _
  | q :: qs => by
    simp only [sIns]
    split
    · exact (List.Perm.cons q (sIns_perm r p qs)).trans (List.Perm.swap p q qs)
    · exact List.Perm.refl _

theorem sSort_perm (r : α → α → Bool) : ∀ l, (sSort r l).Perm l
  | [] => List.Perm.refl _
  | p :: t => (sIns_perm r p (sSort r t)).trans (List.Perm.cons p (sSort_perm r t))

theorem mem_sSort {r : α → α → Bool} {l : List α} {a : α} : a ∈ sSort r l ↔ a ∈ l :=
  (sSort_perm r l).mem_iff

theorem sSort_eq_nil_iff {r : α → α → Bool} {l : List α} : sSort r l = [] ↔ l = [] := by
  constructor
  · intro h
    have := (sSort_perm r l).length_eq
    rw [h] at this
    exact List.eq_nil_of_length_eq_zero this.symm
  · intro h; rw [h]; rfl

theorem head?_sIns (r : α → α → Bool) (p q : α) (t : List α) :
    (sIns r p (q :: t)).head? = some (if r q p then q else p) := by
  simp only [sIns]
  split <;> rfl

theorem firstMaxBy_cons_none (r : α → α → Bool) (p : α) (t : List α)
    (h : firstMaxBy r t = none) : firstMaxBy r (p :: t) = some p := by
  simp only [firstMaxBy]
  rw [h]

theorem firstMaxBy_cons_some (r : α → α → Bool) (p : α) (t : List α) (m : α)
    (h : firstMaxBy r t = some m) :
    firstMaxBy r (p :: t) = if r m p then some m else some p := by
  simp only [firstMaxBy]
  rw [h]

theorem head?_sSort (r : α → α → Bool) : ∀ l, (sSort r l).head? = firstMaxBy r l
  | [] => rfl
  | p :: t => by
    have ih := head?_sSort r t
    cases h : sSort r t with
    | nil =>
      rw [h] at ih
      rw [show sSort r (p :: t) = sIns r p (sSort r t) from rfl, h,
        firstMaxBy_cons_none r p t ih.symm]
      rfl
    | cons q rest =>
      rw [h] at ih
      rw [show sSort r (p :: t) = sIns r p (sSort r t) from rfl, h,
        firstMaxBy_cons_some r p t q ih.symm, head?_sIns, apply_ite some]

theorem firstMaxBy_mem (r : α → α → Bool) : ∀ {l : List α} {m : α},
    firstMaxBy r l = some m → m ∈ l := by
  intro l
  induction l with
  | nil => intro m h; cases h
  | cons p t ih =>
    intro m h
    cases ht : firstMaxBy r t with
    | none =>
      rw [firstMaxBy_cons_none r p t ht] at h
      cases h
      exact List.mem_cons_self p t
    | some q =>
      rw [firstMaxBy_cons_some r p t q ht] at h
      by_cases hr : r q p = true
      · rw [if_pos hr] at h
        cases h
        exact List.mem_cons_of_mem p (ih ht)
      · rw [if_neg hr] at h
        cases h
        exact List.mem_cons_self p t

theorem firstMaxBy_isSome (r : α → α → Bool) {l : List α} (h : l ≠ []) :
    ∃ m, firstMaxBy r l = some m := by
  cases l with
  | nil => exact absurd rfl h
  | cons p t =>
    cases ht : firstMaxBy r t with
    | none => exact ⟨p, firstMaxBy_cons_none r p t ht⟩
    | some q =>
      by_cases hr : r q p = true
      · exact ⟨q, by rw [firstMaxBy_cons_some r p t q ht, if_pos hr]⟩
      · exact ⟨p, by rw [firstMaxBy_cons_some r p t q ht, if_neg hr]⟩

theorem sIns_pairwise_le (r : α → α → Bool)
    (hasym : ∀ a b, r a b = true → r b a = false)
    (hnt : ∀ a b c, r b a = false → r c b = false → r c a = false)
    (p : α) : ∀ {l : List α}, l.Pairwise (fun a b => r b a = false) →
    (sIns r p l).Pairwise (fun a b => r b a = false) := by
  intro l
  induction l with
  | nil => intro _; simp [sIns]
  | cons q qs ih =>
    intro hl
    rcases List.pairwise_cons.mp hl with ⟨hq, hqs⟩
    simp only [sIns]
    by_cases hr : r q p = true
    · rw [if_pos hr]
      refine List.pairwise_cons.mpr ⟨?_, ih hqs⟩
      intro x hx
      rcases List.mem_cons.mp ((sIns_perm r p qs).mem_iff.mp hx) with hx' | hx'
      · rw [hx']; exact hasym q p hr
      · exact hq x hx'
    · rw [if_neg hr]
      have hr' : r q p = false := by simpa using hr
      refine List.pairwise_cons.mpr ⟨?_, hl⟩
      intro x hx
      rcases List.mem_cons.mp hx with hx' | hx'
      · rw [hx']; exact hr'
      · exact hnt p q x hr' (hq x hx')

theorem sSort_pairwise_le (r : α → α → Bool)
    (hasym : ∀ a b, r a b = true → r b a = false)
    (hnt : ∀ a b c, r b a = false → r c b = false → r c a = false) :
    ∀ l : List α, (sSort r l).Pairwise (fun a b => r b a = false)
  | [] => List.Pairwise.nil
  | p :: t => sIns_pairwise_le r hasym hnt p (sSort_pairwise_le r hasym hnt t)

/-- Stability: inserting `p` into a list whose elements all follow `p` in the
secondary order `s` keeps the list pairwise-sorted by "strictly less by `r`,
or tied under `r` and ordered by `s`". -/
theorem sIns_pairwise_lex (r : α → α → Bool) (s : α → α → Prop)
    (hneg : ∀ p q x, r q p = false → (r q x = true ∨ (r q x = false ∧ r x q = false)) →
      r x p = false)
    (p : α) : ∀ {l : List α},
    l.Pairwise (fun a b => r a b = true ∨ (r a b = false ∧ r b a = false ∧ s a b)) →
    (∀ q ∈ l, s p q) →
    (sIns r p l).Pairwise (fun a b => r a b = true ∨ (r a b = false ∧ r b a = false ∧ s a b)) := by
  intro l
  induction l with
  | nil => intro _ _; simp [sIns]
  | cons q qs ih =>
    intro hl hs
    rcases List.pairwise_cons.mp hl with ⟨hq, hqs⟩
    simp only [sIns]
    by_cases hr : r q p = true
    · rw [if_pos hr]
      refine List.pairwise_cons.mpr ⟨?_, ih hqs (fun x hx => hs x (List.mem_cons_of_mem q hx))⟩
      intro x hx
      rcases List.mem_cons.mp ((sIns_perm r p qs).mem_iff.mp hx) with hx' | hx'
      · rw [hx']; exact Or.inl hr
      · exact hq x hx'
    · rw [if_neg hr]
      have hr' : r q p = false := by simpa using hr
      refine List.pairwise_cons.mpr ⟨?_, hl⟩
      intro x hx
      rcases List.mem_cons.mp hx with hx' | hx'
      · rw [hx']
        by_cases hpx : r p q = true
        · exact Or.inl hpx
        · exact Or.inr ⟨by simpa using hpx, hr', hs q (List.mem_cons_self q qs)⟩
      · have hqx := hq x hx'
        have hxp : r x p = false := by
          refine hneg p q x hr' ?_
          rcases hqx with h | ⟨h1, h2, _⟩
          · exact Or.inl h
          · exact Or.inr ⟨h1, h2⟩
        by_cases hpx : r p x = true
        · exact Or.inl hpx
        · exact Or.inr ⟨by simpa using hpx, hxp, hs x (List.mem_cons_of_mem q hx')⟩

/-- A stable descending sort of a list that is pairwise ordered by a secondary
relation `s` yields a list pairwise ordered lexicographically: by `r` first,
ties by `s`. -/
theorem sSort_pairwise_lex (r : α → α → Bool) (s : α → α → Prop)
    (hneg : ∀ p q x, r q p = false → (r q x = true ∨ (r q x = false ∧ r x q = false)) →
      r x p = false) :
    ∀ {l : List α}, l.Pairwise s →
    (sSort r l).Pairwise (fun a b => r a b = true ∨ (r a b = false ∧ r b a = false ∧ s a b)) := by
  intro l
  induction l with
  | nil => intro _; exact List.Pairwise.nil
  | cons p t ih =>
    intro hl
    rcases List.pairwise_cons.mp hl with ⟨hp, ht⟩
    exact sIns_pairwise_lex r s hneg p (ih ht)
      (fun q hq => hp q (mem_sSort.mp hq))

/-! ## Minimum via foldl, as pandas `.min()` computes it -/

theorem foldl_min_le_init (l : List Int) : ∀ a : Int, l.foldl min a ≤ a := by
  induction l with
  | nil => intro a; exact le_refl a
  | cons x xs ih =>
    intro a
    calc (x :: xs).foldl min a = xs.foldl min (min a x) := rfl
    _ ≤ min a x := ih (min a x)
    _ ≤ a := min_le_left a x

theorem foldl_min_le_mem (l : List Int) : ∀ (a x : Int), x ∈ l → l.foldl min a ≤ x := by
  induction l with
  | nil => intro a x h; cases h
  | cons y ys ih =>
    intro a x h
    rcases List.mem_cons.mp h with h' | h'
    · subst h'
      calc (x :: ys).foldl min a = ys.foldl min (min a x) := rfl
      _ ≤ min a x := foldl_min_le_init ys (min a x)
      _ ≤ x := min_le_right a x
    · exact ih (min a y) x h'

theorem foldl_min_mem (l : List Int) : ∀ a : Int, l.foldl min a ∈ a :: l := by
  induction l with
  | nil => intro a; exact List.mem_cons_self a []
  | cons x xs ih =>
    intro a
    have h := ih (min a x)
    rcases List.mem_cons.mp h with h' | h'
    · rw [show (x :: xs).foldl min a = xs.foldl min (min a x) from rfl, h']
      rcases min_choice a x with hm | hm
      · rw [hm]; exact List.mem_cons_self a (x :: xs)
      · rw [hm]; exact List.mem_cons_of_mem a (List.mem_cons_self x xs)
    · rw [show (x :: xs).foldl min a = xs.foldl min (min a x) from rfl]
      exact List.mem_cons_of_mem a (List.mem_cons_of_mem x h')

/-! ## The configured narrative table -/

theorem narratives_keys_nodup : (NARRATIVES.map Prod.fst).Nodup := by decide

/-- In a rule table with distinct names, a name determines its keyword list. -/
theorem assoc_unique : ∀ {l : List (String × List String)}, (l.map Prod.fst).Nodup →
    ∀ {n : String} {b c : List String}, (n, b) ∈ l → (n, c) ∈ l → b = c := by
  intro l
  induction l with
  | nil => intro _ n b c hb _; cases hb
  | cons x xs ih =>
    intro hnd n b c hb hc
    rw [List.map_cons] at hnd
    rcases List.nodup_cons.mp hnd with ⟨hx, hxs⟩
    rcases List.mem_cons.mp hb with hb' | hb' <;> rcases List.mem_cons.mp hc with hc' | hc'
    · rw [← hc'] at hb'; exact (Prod.ext_iff.mp hb').2
    · exfalso
      apply hx
      have hn : x.1 = n := by rw [← hb']
      rw [hn]
      exact List.mem_map.mpr ⟨(n, c), hc', rfl⟩
    · exfalso
      apply hx
      have hn : x.1 = n := by rw [← hc']
      rw [hn]
      exact List.mem_map.mpr ⟨(n, b), hb', rfl⟩
    · exact ih hxs hb' hc'

/-! ## C2: keyword containment characterises classification -/

/-- C2: the classifier puts narrative `n` in a post's matched set exactly when
one of `n`'s configured keywords is a substring of the post's combined
lowercased title-plus-space-plus-body text (missing title or body read as the
empty string by `textOf`); a post whose text contains no keyword of `n` is
never matched to `n`. -/
theorem c2_keyword_containment (p : Post) (n : String) (kws : List String)
    (h : (n, kws) ∈ NARRATIVES) :
    n ∈ detect_narratives (textOf p) ↔ ∃ kw ∈ kws, pyIn kw (textOf p) = true := by
  constructor
  · intro hn
    rcases List.mem_map.mp hn with ⟨nr, hnr, hfst⟩
    rcases List.mem_filter.mp hnr with ⟨hmem, hpred⟩
    have hnr2 : nr = (n, nr.2) := by
      rw [Prod.ext_iff]
      exact ⟨hfst, rfl⟩
    rw [hnr2] at hmem
    have hkws : nr.2 = kws := assoc_unique narratives_keys_nodup hmem h
    rw [← hkws]
    exact List.any_eq_true.mp hpred
  · intro hex
    apply List.mem_map.mpr
    refine ⟨(n, kws), List.mem_filter.mpr ⟨h, ?_⟩, rfl⟩
    exact List.any_eq_true.mpr hex

/-- A concrete post for the witnesses: its text "ai breakthrough " contains
the keyword "ai". -/
def wPost : Post :=
  { subreddit := "r/technews", author := "u1", created_utc := 100000
  , title := some "AI Breakthrough", selftext := none }

theorem c2_keyword_containment_witness :
    ("Technology / Big Tech",
      ["technology", "tech", "ai", "artificial intelligence",
       "google", "meta", "facebook", "twitter", "musk", "data"]) ∈ NARRATIVES ∧
    ("Technology / Big Tech" ∈ detect_narratives (textOf wPost) ↔
      ∃ kw ∈ ["technology", "tech", "ai", "artificial intelligence",
        "google", "meta", "facebook", "twitter", "musk", "data"],
        pyIn kw (textOf wPost) = true) :=
  ⟨by decide, c2_keyword_containment wPost "Technology / Big Tech" _ (by decide)⟩

/-! ## C3: event count equals the sum of per-post match counts -/

/-- C3: the amplification event set has exactly one event per (post, matched
narrative) pair: its size is the sum over posts of the number of matching
rules, and the matched set of any text is duplicate-free, so that number is
the number of distinct matched narratives; a post matching no narrative
contributes zero summands. -/
theorem c3_event_count (posts : List Post) :
    (annEvents posts).length =
      (posts.map (fun p =>
        NARRATIVES.countP (fun nr => nr.2.any (fun kw => pyIn kw (textOf p))))).sum ∧
    ∀ t : String, (detect_narratives t).Nodup := by
  constructor
  · have hlen : ∀ p : Post, (detect_narratives (textOf p)).length
        = NARRATIVES.countP (fun nr => nr.2.any (fun kw => pyIn kw (textOf p))) := by
      intro p
      rw [detect_narratives, List.length_map, List.countP_eq_length_filter]
    simp only [annEvents, List.length_map, explodeEvents, List.length_flatMap]
    apply congrArg
    apply List.map_congr_left
    intro p _
    rw [Function.comp_apply, List.length_map]
    rw [← hlen p, detect_narratives, List.length_map]
  · intro t
    have hsub : ((NARRATIVES.filter
        (fun nr => nr.2.any (fun kw => pyIn kw t))).map Prod.fst).Sublist
        (NARRATIVES.map Prod.fst) :=
      (List.filter_sublist NARRATIVES).map Prod.fst
    exact List.Nodup.sublist hsub narratives_keys_nodup

/-! ## C4: the window filter is exact inclusive membership -/

/-- C4: an event is in the windowed set iff it is in the event set and its day
offset lies inclusively between the bounds; when no event satisfies the bounds
the filter returns the empty list (no clamping ever happens). -/
theorem c4_window_filter (evs : List AEvent) (a b : Int) :
    (∀ e : AEvent, e ∈ window_df evs a b ↔
      e ∈ evs ∧ a ≤ e.days_since_start ∧ e.days_since_start ≤ b) ∧
    ((∀ e ∈ evs, ¬(a ≤ e.days_since_start ∧ e.days_since_start ≤ b)) →
      window_df evs a b = []) := by
  constructor
  · intro e
    rw [window_df, List.mem_filter]
    simp
  · intro h
    rw [window_df, List.filter_eq_nil_iff]
    intro e he
    simpa using h e he

/-! ## C6: the time series and peak day ignore the window -/

/-- C6: for a fixed post set and selected narrative, two runs with different
window selections produce the same NarrativeTimeSeries and the same peak day:
both are computed from the full unwindowed event set. -/
theorem c6_time_series_window_independent (posts : List Post)
    (a b a2 b2 : Int) (sel : String) :
    (runPipeline posts a b sel).timeSeries = (runPipeline posts a2 b2 sel).timeSeries ∧
    (runPipeline posts a b sel).peak = (runPipeline posts a2 b2 sel).peak :=
  ⟨rfl, rfl⟩

/-! ## C7: an empty window degrades to zero KPIs and the message -/

/-- C7: when the windowed event set is empty while the full event set is not,
no aggregate fails: the window summary is all zeros, and the observations
section short-circuits to the single empty-window message instead of computing
the dominant narrative and the daily average. -/
theorem c7_empty_window_degradation (posts : List Post) (a b : Int) (sel : String)
    (_hfull : annEvents posts ≠ [])
    (hempty : window_df (annEvents posts) a b = []) :
    (runPipeline posts a b sel).summary = ⟨0, 0, 0⟩ ∧
    (runPipeline posts a b sel).report = .error emptyWindowMsg := by
  constructor
  · show windowSummary (window_df (annEvents posts) a b) = _
    rw [hempty]
    rfl
  · show observations (annEvents posts) a b sel = _
    simp [observations, hempty]

theorem c7_empty_window_degradation_witness :
    (runPipeline [wPost] 5 9 "Technology / Big Tech").summary = ⟨0, 0, 0⟩ ∧
    (runPipeline [wPost] 5 9 "Technology / Big Tech").report = .error emptyWindowMsg :=
  c7_empty_window_degradation [wPost] 5 9 "Technology / Big Tech" (by decide) (by decide)

/-! ## C8: an entirely unmatched corpus crashes the pipeline -/

/-- A post none of whose keywords occur in any narrative rule. -/
def noMatchPost : Post :=
  { subreddit := "r/misc", author := "u9", created_utc := 0
  , title := some "hello", selftext := some "world" }

/-- C8: when no post matches any narrative the event set is empty, and the
`days_since_start` minimum the slider needs (line 111) does not exist: pandas
returns NaN and the surrounding `int(...)` raises, so the dashboard does NOT
degrade to the empty-window message. `min_day = none` models the NaN. -/
theorem c8_empty_event_set_crash :
    detect_narratives (textOf noMatchPost) = [] ∧
    annEvents [noMatchPost] = [] ∧
    min_day (annEvents [noMatchPost]) = none := by decide

/-! ## C5: first-seen minimality and the day offset -/

/-- `firstSeen` is attained by an event of the narrative and bounds every
event of the narrative from below, whenever the narrative has an event. -/
theorem firstSeen_spec {evs : List Event} {e : Event} (he : e ∈ evs) :
    (∃ e2 ∈ evs, e2.narrative = e.narrative ∧
        e2.created_utc = firstSeen evs e.narrative) ∧
    (∀ e2 ∈ evs, e2.narrative = e.narrative →
        firstSeen evs e.narrative ≤ e2.created_utc) := by
  have hmem : e.created_utc ∈
      (evs.filter (fun x => x.narrative == e.narrative)).map (fun x => x.created_utc) :=
    List.mem_map.mpr ⟨e, List.mem_filter.mpr ⟨he, by simp⟩, rfl⟩
  unfold firstSeen
  cases hl : (evs.filter (fun x => x.narrative == e.narrative)).map (fun x => x.created_utc) with
  | nil =>
    rw [hl] at hmem
    cases hmem
  | cons t ts =>
    constructor
    · have hmin : ts.foldl min t ∈ t :: ts := foldl_min_mem ts t
      rw [← hl] at hmin
      rcases List.mem_map.mp hmin with ⟨e2, he2, hc⟩
      rcases List.mem_filter.mp he2 with ⟨he2m, he2n⟩
      exact ⟨e2, he2m, eq_of_beq he2n, hc.symm.symm ▸ hc⟩
    · intro e2 he2 hn
      have hmem2 : e2.created_utc ∈ t :: ts := by
        rw [← hl]
        exact List.mem_map.mpr ⟨e2, List.mem_filter.mpr ⟨he2, by simp [hn]⟩, rfl⟩
      rcases List.mem_cons.mp hmem2 with h' | h'
      · rw [h']
        exact foldl_min_le_init ts t
      · exact foldl_min_le_mem ts t e2.created_utc h'

/-- C5: every event's `days_since_start` is the whole-day floor of its
creation time minus its narrative's first-seen time, where the first-seen time
is the minimum creation time over the full unwindowed event set of that
narrative; hence the offset is never negative, and an event created exactly at
the first-seen instant has offset zero. -/
theorem c5_days_since_start (posts : List Post) (e : AEvent)
    (h : e ∈ annEvents posts) :
    e.days_since_start
        = (e.created_utc - firstSeen (explodeEvents posts) e.narrative) / 86400 ∧
    0 ≤ e.days_since_start ∧
    (e.created_utc = firstSeen (explodeEvents posts) e.narrative →
      e.days_since_start = 0) ∧
    (∃ e2 ∈ explodeEvents posts, e2.narrative = e.narrative ∧
        e2.created_utc = firstSeen (explodeEvents posts) e.narrative) ∧
    (∀ e2 ∈ explodeEvents posts, e2.narrative = e.narrative →
        firstSeen (explodeEvents posts) e.narrative ≤ e2.created_utc) := by
  simp only [annEvents] at h
  rcases List.mem_map.mp h with ⟨e0, he0, heq⟩
  subst heq
  rcases firstSeen_spec he0 with ⟨hattain, hbound⟩
  refine ⟨rfl, ?_, ?_, hattain, hbound⟩
  · apply Int.ediv_nonneg
    · have := hbound e0 he0 rfl
      omega
    · norm_num
  · intro hc
    show (e0.created_utc - firstSeen (explodeEvents posts) e0.narrative) / 86400 = 0
    rw [← hc]
    simp

theorem c5_days_since_start_witness :
    ({ subreddit := "r/technews", author := "u1", created_utc := 100000
     , narrative := "Technology / Big Tech", days_since_start := 0 } : AEvent)
        ∈ annEvents [wPost] ∧
    (({ subreddit := "r/technews", author := "u1", created_utc := 100000
      , narrative := "Technology / Big Tech", days_since_start := 0 } : AEvent).days_since_start
        = ((100000 : Int) - firstSeen (explodeEvents [wPost]) "Technology / Big Tech") / 86400 ∧
      (0 : Int) ≤ 0 ∧
      ((100000 : Int) = firstSeen (explodeEvents [wPost]) "Technology / Big Tech" →
        (0 : Int) = 0) ∧
      (∃ e2 ∈ explodeEvents [wPost], e2.narrative = "Technology / Big Tech" ∧
          e2.created_utc = firstSeen (explodeEvents [wPost]) "Technology / Big Tech") ∧
      (∀ e2 ∈ explodeEvents [wPost], e2.narrative = "Technology / Big Tech" →
          firstSeen (explodeEvents [wPost]) "Technology / Big Tech" ≤ e2.created_utc)) :=
  ⟨by decide, c5_days_since_start [wPost] _ (by decide)⟩

/-! ## C10: the daily average divides by the active days only -/

/-- The mean of the per-day group sizes equals the windowed event total
divided by the number of distinct active days. -/
theorem avg_eq_total_div_days (w : List AEvent) :
    avg_posts_per_day w
      = (w.length : ℚ) / (((w.map (fun e => e.days_since_start)).dedup.length : ℚ)) := by
  simp only [avg_posts_per_day]
  have hperm : ((sSort intLt (w.map (fun e => e.days_since_start)).dedup).map
        (fun d => (w.map (fun e => e.days_since_start)).count d)).Perm
      (((w.map (fun e => e.days_since_start)).dedup).map
        (fun d => (w.map (fun e => e.days_since_start)).count d)) :=
    (sSort_perm intLt _).map _
  have hsum : ((sSort intLt (w.map (fun e => e.days_since_start)).dedup).map
        (fun d => (w.map (fun e => e.days_since_start)).count d)).sum
      = w.length := by
    rw [hperm.sum_eq, List.sum_map_count_dedup_eq_length, List.length_map]
  have hlen : ((sSort intLt (w.map (fun e => e.days_since_start)).dedup).map
        (fun d => (w.map (fun e => e.days_since_start)).count d)).length
      = (w.map (fun e => e.days_since_start)).dedup.length := by
    rw [List.length_map, (sSort_perm intLt _).length_eq]
  rw [hsum, hlen]

/-- C10: for a non-empty windowed event set the average-posts-per-day
observation is the windowed total divided by the number of distinct
`days_since_start` values present in the window (the active days), not by the
width of the selected window. -/
theorem c10_avg_posts_per_day (evs : List AEvent) (a b : Int)
    (_h : window_df evs a b ≠ []) :
    avg_posts_per_day (window_df evs a b)
      = ((window_df evs a b).length : ℚ)
        / (((window_df evs a b).map (fun e => e.days_since_start)).dedup.length : ℚ) :=
  avg_eq_total_div_days (window_df evs a b)

theorem c10_avg_posts_per_day_witness :
    window_df (annEvents [wPost]) 0 5 ≠ [] ∧
    avg_posts_per_day (window_df (annEvents [wPost]) 0 5)
      = ((window_df (annEvents [wPost]) 0 5).length : ℚ)
        / (((window_df (annEvents [wPost]) 0 5).map
            (fun e => e.days_since_start)).dedup.length : ℚ) :=
  ⟨by decide, c10_avg_posts_per_day (annEvents [wPost]) 0 5 (by decide)⟩

/-! ## C1: the peak day is the earliest day of maximal count -/

theorem keyLt_asymm : ∀ a b, keyLt a b = true → keyLt b a = false :=
  asymm_of keyLt keyLt_irrefl (fun _ _ _ h1 h2 => keyLt_trans h1 h2)

theorem keyLt_negtrans : ∀ a b c, keyLt b a = false → keyLt c b = false →
    keyLt c a = false :=
  negtrans_of keyLt keyLt_irrefl (fun _ _ _ h1 h2 => keyLt_trans h1 h2) keyLt_tri

/-- The sorted distinct groupby keys are strictly increasing. -/
theorem sortedKeys_pairwise (evs : List AEvent) :
    (sSort keyLt ((evs.map eventKey).dedup)).Pairwise
      (fun k k2 => keyLt k k2 = true) := by
  have h1 := sSort_pairwise_le keyLt keyLt_asymm keyLt_negtrans ((evs.map eventKey).dedup)
  have h2 : (sSort keyLt ((evs.map eventKey).dedup)).Nodup :=
    ((sSort_perm keyLt ((evs.map eventKey).dedup)).symm).nodup
      (List.nodup_dedup (evs.map eventKey))
  refine (h1.and h2).imp ?_
  intro a b hab
  rcases keyLt_tri a b with rfl | h | h
  · exact absurd rfl hab.2
  · exact h
  · rw [h] at hab
    exact absurd hab.1 (by simp)

theorem mem_sortedKeys (evs : List AEvent) (k : Int × String) :
    k ∈ sSort keyLt ((evs.map eventKey).dedup) ↔ ∃ e ∈ evs, eventKey e = k := by
  rw [mem_sSort, List.mem_dedup, List.mem_map]

/-- The multiplicity of a key among the event keys is the time-series count. -/
theorem count_eventKey (evs : List AEvent) (d : Int) (sel : String) :
    (evs.map eventKey).count (d, sel) = tsCount evs sel d := by
  rw [List.count_eq_countP, List.countP_map]
  rfl

/-- Restricting the time series to a narrative is mapping over the keys of
that narrative. -/
theorem narrative_time_filter (evs : List AEvent) (sel : String) :
    (narrative_time_df evs).filter (fun row => row.2.1 == sel)
      = ((sSort keyLt ((evs.map eventKey).dedup)).filter (fun k => k.2 == sel)).map
          (fun k => (k.1, k.2, (evs.map eventKey).count k)) := by
  rw [narrative_time_df, List.filter_map]
  rfl

/-- Within one narrative the filtered keys have strictly increasing days. -/
theorem filteredKeys_day_pairwise (evs : List AEvent) (sel : String) :
    ((sSort keyLt ((evs.map eventKey).dedup)).filter (fun k => k.2 == sel)).Pairwise
      (fun k k2 => k.1 < k2.1) := by
  have hp : ((sSort keyLt ((evs.map eventKey).dedup)).filter
      (fun k => k.2 == sel)).Pairwise (fun k k2 => keyLt k k2 = true) :=
    List.Pairwise.sublist
      (List.filter_sublist (sSort keyLt ((evs.map eventKey).dedup)))
      (sortedKeys_pairwise evs)
  refine List.Pairwise.imp_of_mem ?_ hp
  intro a b ha hb hlt
  have ha2 : a.2 = sel := eq_of_beq (List.mem_filter.mp ha).2
  have hb2 : b.2 = sel := eq_of_beq (List.mem_filter.mp hb).2
  simp only [keyLt, Bool.or_eq_true, Bool.and_eq_true, decide_eq_true_eq] at hlt
  rcases hlt with h | ⟨_, hs⟩
  · exact h
  · rw [ha2, hb2, pyStrLt_irrefl] at hs
    exact absurd hs (by simp)

/-- The selected narrative's time-series rows have strictly increasing days. -/
theorem tsRows_day_pairwise (evs : List AEvent) (sel : String) :
    ((narrative_time_df evs).filter (fun row => row.2.1 == sel)).Pairwise
      (fun r1 r2 => r1.1 < r2.1) := by
  rw [narrative_time_filter]
  exact List.Pairwise.map _ (fun a b h => h) (filteredKeys_day_pairwise evs sel)

/-- The first maximum of a day-increasing row list: it is a row, its count
bounds every count, and on equal counts its day is the least. -/
theorem firstMaxBy_rows_spec : ∀ {l : List (Int × String × Nat)},
    l.Pairwise (fun r1 r2 => r1.1 < r2.1) → ∀ {m : Int × String × Nat},
    firstMaxBy cntDescRow l = some m →
    m ∈ l ∧ ∀ x ∈ l, x.2.2 ≤ m.2.2 ∧ (x.2.2 = m.2.2 → m.1 ≤ x.1) := by
  intro l
  induction l with
  | nil => intro _ m h; cases h
  | cons p t ih =>
    intro hl m hm
    rcases List.pairwise_cons.mp hl with ⟨hp, ht⟩
    cases hft : firstMaxBy cntDescRow t with
    | none =>
      have ht0 : t = [] := by
        cases t with
        | nil => rfl
        | cons q qs =>
          rcases firstMaxBy_isSome cntDescRow (l := q :: qs) (by simp) with ⟨m2, hm2⟩
          rw [hm2] at hft
          cases hft
      rw [firstMaxBy_cons_none _ _ _ hft] at hm
      cases hm
      subst ht0
      refine ⟨List.mem_cons_self p [], ?_⟩
      intro x hx
      rcases List.mem_cons.mp hx with h' | h'
      · rw [h']
        exact ⟨le_refl _, fun _ => le_refl _⟩
      · cases h'
    | some q =>
      rw [firstMaxBy_cons_some _ _ _ _ hft] at hm
      rcases ih ht hft with ⟨hqmem, hmax⟩
      by_cases hr : cntDescRow q p = true
      · rw [if_pos hr] at hm
        have hqm : q = m := by injection hm
        subst hqm
        have hpq : p.2.2 < q.2.2 := by simpa [cntDescRow] using hr
        refine ⟨List.mem_cons_of_mem p hqmem, ?_⟩
        intro x hx
        rcases List.mem_cons.mp hx with hx' | hx'
        · rw [hx']
          exact ⟨le_of_lt hpq, fun he => absurd he (by omega)⟩
        · exact hmax x hx'
      · rw [if_neg hr] at hm
        have hpm : p = m := by injection hm
        subst hpm
        have hqp : ¬(p.2.2 < q.2.2) := by simpa [cntDescRow] using hr
        refine ⟨List.mem_cons_self p t, ?_⟩
        intro x hx
        rcases List.mem_cons.mp hx with hx' | hx'
        · rw [hx']
          exact ⟨le_refl _, fun _ => le_refl _⟩
        · have h1 := (hmax x hx').1
          exact ⟨by omega, fun _ => le_of_lt (hp x hx')⟩

/-- Every event of the selected narrative contributes its day's row to the
filtered time series. -/
theorem row_mem_of_event {evs : List AEvent} {sel : String} {e2 : AEvent}
    (he2 : e2 ∈ evs) (hn : e2.narrative = sel) :
    (e2.days_since_start, sel, tsCount evs sel e2.days_since_start)
      ∈ (narrative_time_df evs).filter (fun row => row.2.1 == sel) := by
  rw [narrative_time_filter]
  apply List.mem_map.mpr
  refine ⟨(e2.days_since_start, sel), List.mem_filter.mpr ⟨?_, by simp⟩, ?_⟩
  · exact (mem_sortedKeys evs (e2.days_since_start, sel)).mpr
      ⟨e2, he2, by simp [eventKey, hn]⟩
  · rw [count_eventKey]

/-- Conversely, every filtered row comes from an event and carries the
time-series count of its day. -/
theorem row_elim {evs : List AEvent} {sel : String} {x : Int × String × Nat}
    (hx : x ∈ (narrative_time_df evs).filter (fun row => row.2.1 == sel)) :
    (∃ e2 ∈ evs, e2.narrative = sel ∧ e2.days_since_start = x.1) ∧
    x.2.2 = tsCount evs sel x.1 := by
  rw [narrative_time_filter] at hx
  rcases List.mem_map.mp hx with ⟨k, hk, hxk⟩
  rcases List.mem_filter.mp hk with ⟨hkmem, hksel⟩
  have hk2 : k.2 = sel := eq_of_beq hksel
  rcases (mem_sortedKeys evs k).mp hkmem with ⟨e2, he2, hek⟩
  have hkey : k = (k.1, sel) := by
    rw [Prod.ext_iff]
    exact ⟨rfl, hk2⟩
  constructor
  · refine ⟨e2, he2, ?_, ?_⟩
    · have : eventKey e2 = k := hek
      rw [eventKey] at this
      rw [← hk2, ← this]
    · have : eventKey e2 = k := hek
      rw [eventKey] at this
      rw [← hxk, ← this]
  · rw [← hxk]
    show (evs.map eventKey).count k = tsCount evs sel k.1
    rw [hkey, count_eventKey]

/-- C1: for a selected narrative present in the event set, the peak day is a
day of the narrative's full unwindowed time series whose count is maximal, and
it is the smallest day among those attaining that maximal count. -/
theorem c1_peak_day_first_max (posts : List Post) (sel : String)
    (h : ∃ e ∈ annEvents posts, e.narrative = sel) :
    ∃ p, peakDay (annEvents posts) sel = some p ∧
      (∃ e ∈ annEvents posts, e.narrative = sel ∧ e.days_since_start = p) ∧
      (∀ e ∈ annEvents posts, e.narrative = sel →
        tsCount (annEvents posts) sel e.days_since_start
            ≤ tsCount (annEvents posts) sel p ∧
        (tsCount (annEvents posts) sel e.days_since_start
            = tsCount (annEvents posts) sel p → p ≤ e.days_since_start)) := by
  rcases h with ⟨e, he, hesel⟩
  have hrowe := row_mem_of_event he hesel
  have hrowsne : (narrative_time_df (annEvents posts)).filter
      (fun row => row.2.1 == sel) ≠ [] := by
    intro hnil
    rw [hnil] at hrowe
    cases hrowe
  rcases firstMaxBy_isSome cntDescRow hrowsne with ⟨m, hmfm⟩
  rcases firstMaxBy_rows_spec (tsRows_day_pairwise (annEvents posts) sel) hmfm
    with ⟨hmmem, hmmax⟩
  rcases row_elim hmmem with ⟨⟨em, hem, hemn, hemd⟩, hmcnt⟩
  have hpeak : peakDay (annEvents posts) sel = some m.1 := by
    rw [peakDay, peak_row, head?_sSort, hmfm]
    rfl
  refine ⟨m.1, hpeak, ⟨em, hem, hemn, hemd⟩, ?_⟩
  intro e2 he2 he2n
  have hrow2 := row_mem_of_event he2 he2n
  rcases hmmax _ hrow2 with ⟨hle, htie⟩
  constructor
  · calc tsCount (annEvents posts) sel e2.days_since_start ≤ m.2.2 := hle
    _ = tsCount (annEvents posts) sel m.1 := hmcnt
  · intro heq
    apply htie
    rw [heq, hmcnt]

theorem c1_peak_day_first_max_witness :
    (∃ e ∈ annEvents [wPost], e.narrative = "Technology / Big Tech") ∧
    (∃ p, peakDay (annEvents [wPost]) "Technology / Big Tech" = some p ∧
      (∃ e ∈ annEvents [wPost], e.narrative = "Technology / Big Tech" ∧
        e.days_since_start = p) ∧
      (∀ e ∈ annEvents [wPost], e.narrative = "Technology / Big Tech" →
        tsCount (annEvents [wPost]) "Technology / Big Tech" e.days_since_start
            ≤ tsCount (annEvents [wPost]) "Technology / Big Tech" p ∧
        (tsCount (annEvents [wPost]) "Technology / Big Tech" e.days_since_start
            = tsCount (annEvents [wPost]) "Technology / Big Tech" p →
          p ≤ e.days_since_start))) :=
  ⟨by decide, c1_peak_day_first_max [wPost] "Technology / Big Tech" (by decide)⟩

/-! ## C9: top communities, tie-break order -/

theorem pyStrLt_asymm : ∀ a b : String, pyStrLt a b = true → pyStrLt b a = false :=
  asymm_of pyStrLt pyStrLt_irrefl (fun _ _ _ h1 h2 => pyStrLt_trans h1 h2)

theorem pyStrLt_negtrans : ∀ a b c : String, pyStrLt b a = false →
    pyStrLt c b = false → pyStrLt c a = false :=
  negtrans_of pyStrLt pyStrLt_irrefl (fun _ _ _ h1 h2 => pyStrLt_trans h1 h2) pyStrLt_tri

/-- The sorted distinct subreddit names are strictly increasing. -/
theorem sortedNames_pairwise (subs : List String) :
    (sSort pyStrLt subs.dedup).Pairwise (fun s1 s2 => pyStrLt s1 s2 = true) := by
  have h1 := sSort_pairwise_le pyStrLt pyStrLt_asymm pyStrLt_negtrans subs.dedup
  have h2 : (sSort pyStrLt subs.dedup).Nodup :=
    ((sSort_perm pyStrLt subs.dedup).symm).nodup (List.nodup_dedup subs)
  refine (h1.and h2).imp ?_
  intro a b hab
  rcases pyStrLt_tri a b with rfl | h | h
  · exact absurd rfl hab.2
  · exact h
  · rw [h] at hab
    exact absurd hab.1 (by simp)

theorem countsList_pairwise (subs : List String) :
    ((sSort pyStrLt subs.dedup).map (fun s => (s, subs.count s))).Pairwise
      (fun p q : String × Nat => pyStrLt p.1 q.1 = true) :=
  List.Pairwise.map _ (fun _ _ h => h) (sortedNames_pairwise subs)

theorem cntDescPair_hneg : ∀ p q x : String × Nat, cntDescPair q p = false →
    (cntDescPair q x = true ∨ (cntDescPair q x = false ∧ cntDescPair x q = false)) →
    cntDescPair x p = false := by
  intro p q x h1 h2
  simp only [cntDescPair, decide_eq_true_eq, decide_eq_false_iff_not] at h1 h2 ⊢
  rcases h2 with h2 | ⟨h2a, h2b⟩ <;> omega

/-- The descending stable sort of the name-sorted counts is ordered by count
descending with ties in ascending name order. -/
theorem sortedCounts_pairwise (subs : List String) :
    (sSort cntDescPair ((sSort pyStrLt subs.dedup).map
        (fun s => (s, subs.count s)))).Pairwise
      (fun p q => q.2 < p.2 ∨ (p.2 = q.2 ∧ pyStrLt p.1 q.1 = true)) := by
  have h := sSort_pairwise_lex cntDescPair
    (fun p q : String × Nat => pyStrLt p.1 q.1 = true)
    cntDescPair_hneg (countsList_pairwise subs)
  refine h.imp ?_
  intro a b hab
  rcases hab with h1 | ⟨h1, h2, h3⟩
  · exact Or.inl (by simpa [cntDescPair] using h1)
  · refine Or.inr ⟨?_, h3⟩
    have e1 : ¬(b.2 < a.2) := by simpa [cntDescPair] using h1
    have e2 : ¬(a.2 < b.2) := by simpa [cntDescPair] using h2
    omega

theorem topTen_mem {subs : List String} {pr : String × Nat}
    (h : pr ∈ (sSort cntDescPair ((sSort pyStrLt subs.dedup).map
      (fun s => (s, subs.count s)))).take 10) :
    pr.1 ∈ subs ∧ pr.2 = subs.count pr.1 := by
  have h2 := mem_sSort.mp (List.mem_of_mem_take h)
  rcases List.mem_map.mp h2 with ⟨s, hs, heq⟩
  have hs2 : s ∈ subs := List.mem_dedup.mp (mem_sSort.mp hs)
  rw [← heq]
  exact ⟨hs2, rfl⟩

theorem topTen_complete {subs : List String} (hlen : subs.dedup.length ≤ 10)
    {s : String} (hs : s ∈ subs) :
    ∃ pr ∈ (sSort cntDescPair ((sSort pyStrLt subs.dedup).map
      (fun s2 => (s2, subs.count s2)))).take 10, pr.1 = s := by
  have hslen : (sSort cntDescPair ((sSort pyStrLt subs.dedup).map
      (fun s2 => (s2, subs.count s2)))).length ≤ 10 := by
    rw [(sSort_perm cntDescPair _).length_eq, List.length_map,
      (sSort_perm pyStrLt _).length_eq]
    exact hlen
  rw [List.take_of_length_le hslen]
  refine ⟨(s, subs.count s), ?_, rfl⟩
  apply mem_sSort.mpr
  exact List.mem_map.mpr ⟨s, mem_sSort.mpr (List.mem_dedup.mpr hs), rfl⟩

/-- Two events of one narrative and one day whose subreddits are encountered
in anti-alphabetical order: "zebra" first, "apple" second. -/
def zebraEvents : List AEvent :=
  [ { subreddit := "zebra", author := "u1", created_utc := 0
    , narrative := "Geopolitics / Conflict", days_since_start := 0 }
  , { subreddit := "apple", author := "u2", created_utc := 0
    , narrative := "Geopolitics / Conflict", days_since_start := 0 } ]

/-- C9 fails as stated: with two tied subreddits first encountered as
"zebra" then "apple", the code's output (alphabetical tie order, from the
sorted groupby) differs from the specified first-encountered tie order. -/
theorem c9_tie_break_counterexample :
    community_counts zebraEvents 0 0 "Geopolitics / Conflict"
      ≠ community_counts_specOrder zebraEvents 0 0 "Geopolitics / Conflict" := by
  decide

/-- C9 amended: TopCommunities lists at most ten (subreddit, count) pairs of
the selected narrative's windowed events, each count being that subreddit's
event count; it is sorted by count descending with ties broken by ASCENDING
SUBREDDIT NAME (the sorted groupby's key order), not by first-encountered
order; when at most ten subreddits are active every one of them appears. -/
theorem c9_top_communities_amended (evs : List AEvent) (a b : Int) (sel : String) :
    (community_counts evs a b sel).length ≤ 10 ∧
    (∀ pr ∈ community_counts evs a b sel,
      (∃ e ∈ (window_df evs a b).filter (fun e => e.narrative == sel),
        e.subreddit = pr.1) ∧
      pr.2 = (((window_df evs a b).filter (fun e => e.narrative == sel)).map
        (fun e => e.subreddit)).count pr.1) ∧
    (community_counts evs a b sel).Pairwise
      (fun p q => q.2 < p.2 ∨ (p.2 = q.2 ∧ pyStrLt p.1 q.1 = true)) ∧
    ((((window_df evs a b).filter (fun e => e.narrative == sel)).map
        (fun e => e.subreddit)).dedup.length ≤ 10 →
      ∀ e ∈ (window_df evs a b).filter (fun e => e.narrative == sel),
        ∃ pr ∈ community_counts evs a b sel, pr.1 = e.subreddit) := by
  simp only [community_counts]
  refine ⟨?_, ?_, ?_, ?_⟩
  · exact List.length_take_le 10 _
  · intro pr hpr
    rcases topTen_mem hpr with ⟨h1, h2⟩
    exact ⟨List.mem_map.mp h1, h2⟩
  · exact List.Pairwise.sublist (List.take_sublist 10 _) (sortedCounts_pairwise _)
  · intro hlen e he
    exact topTen_complete hlen
      (List.mem_map.mpr ⟨e, he, rfl⟩)

end NarrativeSpread
